import Mathlib

/-!
Verification of the list-extraction core of GerapyAutoExtractor against its
specification.  The development shallowly embeds the two source files
`gerapy_auto_extractor/utils/element.py` and
`gerapy_auto_extractor/extractors/list.py`.

Conventions of the embedding:
* Python's parsed DOM (lxml) is modelled by the inductive `Node` (element
  nodes carry tag, ordered attribute list and children in document order;
  text is modelled by `textNode` children).
* An lxml element handle additionally knows its siblings; `Elem` packs the
  node together with its preceding/following sibling lists.
* A Python value of dynamic type (the `text` accessor returns the int `0`
  on `None` input and a string otherwise) is modelled by `PyVal`.
* Python code that can raise an exception is modelled with `Except PyErr`;
  `Except.error` is an uncaught raised exception reaching the caller.
* Python floats are modelled as `ℚ` wherever the source does arithmetic or
  comparisons on them.
-/

namespace Gerapy

/-- A node of the parsed HTML document: an element with tag name, ordered
attribute list and children in document order, or a text node. -/
inductive Node where
  | elem (tag : String) (attrs : List (String × String)) (children : List Node)
  | textNode (s : String)

/-- Python dynamic values returned by accessors whose result type depends on
the branch taken (int vs str). -/
inductive PyVal where
  | int (n : Int)
  | str (s : String)
deriving DecidableEq

/-- Uncaught Python exceptions, as surfaced by the embedded functions. -/
inductive PyErr where
  | keyError
  | valueError
  | attributeError
  | typeError
deriving DecidableEq

/-- Tag of a node; text nodes have no tag (modelled as `""`, which is never
the tag of a real HTML element). -/
def tagOf : Node → String
  | .elem t _ _ => t
  | .textNode _ => ""

/-- Attribute list of a node. -/
def attrsOf : Node → List (String × String)
  | .elem _ a _ => a
  | .textNode _ => []

/-- Children of a node (text nodes have none). -/
def childrenOf : Node → List Node
  | .textNode _ => []
  | .elem _ _ cs => cs

/-- Is the node an element node (lxml iteration yields only these)? -/
def isElem : Node → Bool
  | .elem _ _ _ => true
  | .textNode _ => false

/-- All element descendants of the nodes of a list, in document (preorder)
order.  This is the traversal underlying `element.iterdescendants()` /
xpath `.//\x2a`: each element node itself followed by its descendants. -/
def descendantsList : List Node → List Node
  | [] => []
  | .textNode _ :: rest => descendantsList rest
  | .elem t a cs :: rest => .elem t a cs :: (descendantsList cs ++ descendantsList rest)

/-- The concatenation of all text nodes under the nodes of a list, in
document order: xpath `.//text()` followed by `''.join`. -/
def gatherTextList : List Node → String
  | [] => ""
  | .textNode s :: rest => s ++ gatherTextList rest
  | .elem _ _ cs :: rest => gatherTextList cs ++ gatherTextList rest

/-- Characters matched by Python's regex `\s` (ASCII range). -/
def isPySpace (c : Char) : Bool :=
  c = ' ' || c = '\t' || c = '\n' || c = '\r' || c = '\x0b' || c = '\x0c'

/-- Python `re.sub(r'\s*', '', s)`: remove every whitespace character from `s`. -/
def stripWs (s : String) : String :=
  String.mk (s.toList.filter (fun c => !(isPySpace c)))

/-- An lxml element handle: the subtree rooted at the element plus its
sibling context inside the parent.  `precedingSiblings` lists the preceding
element siblings in the order produced by
`element.itersiblings(preceding=True)` (nearest first), `followingSiblings`
the following ones in document order. -/
structure Elem where
  node : Node
  precedingSiblings : List Node
  followingSiblings : List Node

/-- The `PUNCTUATION` set of `utils/element.py`. -/
def PUNCTUATION : List Char :=
  ['！', '，', '。', '？', '、', '；', '：', '“', '”', '‘', '’', '《', '》', '%',
   '（', '）', '<', '>', '\x7b', '\x7d', '「', '」', '【', '】', '*', '～', '\x60', ',',
   '.', '?', ':', ';', '\x27', '"', '!', '(', ')']

/-- Function `text(element)` of `utils/element.py`: returns the int `0` when
`element is None`, otherwise the whitespace-stripped concatenation of all
text under the element. -/
def text (element : Option Elem) : PyVal :=
  match element with
  | none => .int 0
  | some e => .str (stripWs (gatherTextList (childrenOf e.node)))

/-- Function `number_of_char(element)`: `len(text(element))`.  On `None` input,
`text` returns the int `0` and `len(0)` raises `TypeError`. -/
def number_of_char (element : Option Elem) : Except PyErr Nat :=
  match text element with
  | .int _ => .error .typeError
  | .str s => .ok s.length

/-- Function `a_descendants(element)`: the elements returned by xpath `.//a`, i.e.
the proper element descendants with tag `a`, in document order; `[]` when
`element is None`. -/
def a_descendants (element : Option Elem) : List Node :=
  match element with
  | none => []
  | some e => (descendantsList (childrenOf e.node)).filter (fun d => tagOf d = "a")

/-- Function `siblings(element, including=False)`: preceding then following element
siblings; `[]` when `element is None`. -/
def siblings (element : Option Elem) : List Node :=
  match element with
  | none => []
  | some e => e.precedingSiblings ++ e.followingSiblings

/-- Function `descendants(element, including=False)`: all proper element descendants
in document order; `[]` when `element is None`. -/
def descendants (element : Option Elem) : List Node :=
  match element with
  | none => []
  | some e => descendantsList (childrenOf e.node)

/-- Function `children(element)`: element children; `[]` when `element is None`. -/
def children (element : Option Elem) : List Node :=
  match element with
  | none => []
  | some e => (childrenOf e.node).filter (fun c => isElem c)

/-- Function `number_of_siblings(element)`: `0` when `element is None`. -/
def number_of_siblings (element : Option Elem) : Nat :=
  match element with
  | none => 0
  | some e => (siblings (some e)).length

/-- Function `number_of_descendants(element)`: `0` when `element is None`. -/
def number_of_descendants (element : Option Elem) : Nat :=
  match element with
  | none => 0
  | some e => (descendants (some e)).length

/-- Function `number_of_children(element)`: `0` when `element is None`. -/
def number_of_children (element : Option Elem) : Nat :=
  match element with
  | none => 0
  | some e => (children (some e)).length

/-- Function `number_of_a_descendants(element)`: `len(element.xpath('.//a'))`;
`0` when `element is None`. -/
def number_of_a_descendants (element : Option Elem) : Nat :=
  match element with
  | none => 0
  | some e => (a_descendants (some e)).length

/-- Function `number_of_p_descendants(element)`: `len(element.xpath('.//p'))`;
`0` when `element is None`. -/
def number_of_p_descendants (element : Option Elem) : Nat :=
  match element with
  | none => 0
  | some e => ((descendantsList (childrenOf e.node)).filter (fun d => tagOf d = "p")).length

/-- Function `number_of_punctuation(element)`: count of punctuation characters in the
whitespace-stripped text; `0` when `element is None`. -/
def number_of_punctuation (element : Option Elem) : Nat :=
  match element with
  | none => 0
  | some e =>
    ((stripWs (gatherTextList (childrenOf e.node))).toList.filter
      (fun c => c ∈ PUNCTUATION)).length

/-- One step of the `attribs.append` loop of `alias`: an attribute pair is
rendered as `[name="value"]`, or `[name]` when the whitespace-stripped value
is empty; both name and value have all whitespace removed first. -/
def renderAttrib (kv : String × String) : String :=
  let k := stripWs kv.1
  let v := stripWs kv.2
  if v = "" then "[" ++ k ++ "]" else "[" ++ k ++ "=\"" ++ v ++ "\"]"

/-- Function `alias(element)` of `utils/element.py` (the name `alias` itself is a
reserved word in Lean): `''` for `None`, otherwise the tag, the rendered
attributes, and a `::nth-child(n)` suffix added when `n != 1`, where `n` is
`len(list(element.itersiblings(preceding=True))) + 1`. -/
def alias' (element : Option Elem) : String :=
  match element with
  | none => ""
  | some e =>
    let attribs := [tagOf e.node] ++ (attrsOf e.node).map renderAttrib
    let result := String.join attribs
    let nth := e.precedingSiblings.length + 1
    result ++ (if nth ≠ 1 then "::nth-child(" ++ toString nth ++ ")" else "")

/-- Written from the claim's wording (C9): an attribute is rendered as
`[name="value"]`, or `[name]` when the value is the empty string, with all
whitespace removed from both the name and the value. -/
def renderAttribSpec (name : String) (value : String) : String :=
  if stripWs value = "" then "[" ++ stripWs name ++ "]"
  else "[" ++ stripWs name ++ "=\"" ++ stripWs value ++ "\"]"

/-- Written from the claim's wording (C9): the `::nth-child(n)` suffix,
omitted exactly when `n = 1`. -/
def nthChildSpec (n : Nat) : String :=
  if n = 1 then "" else "::nth-child(" ++ toString n ++ ")"

/-- Written from the claim's wording (C9): tag name, followed by each
attribute rendered in attribute order, followed by the nth-child suffix for
`n` = number of preceding siblings + 1. -/
def aliasSpec (e : Elem) : String :=
  tagOf e.node
    ++ String.join ((attrsOf e.node).map (fun kv => renderAttribSpec kv.1 kv.2))
    ++ nthChildSpec (e.precedingSiblings.length + 1)

/-- The cached numeric features read by the density functions.  They are
properties of the `Element` schema class (`schemas/element.py`, not under
`src/`); the density functions consume them as plain numbers. -/
structure DensityElem where
  number_of_descendants : Int
  number_of_a_descendants : Int
  number_of_char : Int
  number_of_a_char : Int
  number_of_punctuation : Int

/-- Function `density_of_text(element)`: `(char - a_char) / (descendants -
a_descendants)`, `0` when the denominator is `0`.  The function reads
attributes of `element` without a `None` guard, so `None` input raises
`AttributeError`. -/
def density_of_text (element : Option DensityElem) : Except PyErr ℚ :=
  match element with
  | none => .error .attributeError
  | some e =>
    if e.number_of_descendants - e.number_of_a_descendants = 0 then .ok 0
    else .ok ((e.number_of_char - e.number_of_a_char : ℚ) /
      (e.number_of_descendants - e.number_of_a_descendants : ℚ))

/-- Function `density_of_punctuation(element)`: `(char - a_char) / (punctuation + 1)`,
with a result of `0` forced to `1` (`result or 1`).  Reads attributes of
`element` without a `None` guard, so `None` input raises `AttributeError`. -/
def density_of_punctuation (element : Option DensityElem) : Except PyErr ℚ :=
  match element with
  | none => .error .attributeError
  | some e =>
    let result : ℚ := (e.number_of_char - e.number_of_a_char : ℚ) /
      (e.number_of_punctuation + 1 : ℚ)
    if result = 0 then .ok 1 else .ok result

/-! ## Embedding of `extractors/list.py` -/

/-- The four configuration numbers of `ListExtractor.__init__`
(defaults `5`, `8`, `35`, `0.8`). -/
structure ListExtractor where
  min_number : ℚ
  min_length : ℚ
  max_length : ℚ
  similarity_threshold : ℚ

/-- The module-level default configuration (`list_extractor = ListExtractor()`). -/
def defaultExtractor : ListExtractor := ⟨5, 8, 35, 4 / 5⟩

/-- Field `self.avg_length = (self.min_length + self.max_length) / 2`. -/
def ListExtractor.avg_length (ext : ListExtractor) : ℚ :=
  (ext.min_length + ext.max_length) / 2

/-- The same configuration with the similarity threshold replaced. -/
def setThreshold (ext : ListExtractor) (t : ℚ) : ListExtractor :=
  ⟨ext.min_number, ext.min_length, ext.max_length, t⟩

/-- A linked (`<a>`) descendant of a candidate element as consumed by
`_extract_from_cluster`: its `tag_path` (cached on the `Element` schema
class, `schemas/element.py`, which is not under `src/`), its computed text
(`descendant_text = text(descendant)`), and `descendant.attrib.get('href')`
(`none` models a missing attribute). -/
structure LinkedDescendant where
  tag_path : String
  descendant_text : String
  href : Option String
deriving DecidableEq

/-- The features of a candidate element consumed by the list pipeline.
All of them are cached properties of the `Element` schema class
(`schemas/element.py`, not under `src/`); `list.py` reads them as plain
values.  `number_of_siblings` and `similarity_with_siblings` are written
onto the element by `_build_clusters` before its checks and reused by the
scorer. -/
structure PipeElem where
  number_of_siblings : Nat
  linked_descendants_group_text_min_length : ℚ
  linked_descendants_group_text_max_length : ℚ
  similarity_with_siblings : ℚ
  parent_selector : List Char
  linked_descendants : List LinkedDescendant
deriving DecidableEq

/-- The candidate filter of `_build_clusters` (lines 62-76), one `continue`
check per branch, in source order. -/
def passesFilter (ext : ListExtractor) (d : PipeElem) : Bool :=
  if (d.number_of_siblings + 1 : ℚ) < ext.min_number then false
  else if ext.max_length < d.linked_descendants_group_text_min_length then false
  else if d.linked_descendants_group_text_max_length < ext.min_length then false
  else if d.similarity_with_siblings < ext.similarity_threshold then false
  else true

/-- Python `defaultdict(list)` insertion: append `v` to the group of key `k`,
creating the group at the end when the key is new (Python dicts keep
insertion order). -/
def insertGroup {κ α : Type} [DecidableEq κ] (m : List (κ × List α)) (k : κ) (v : α) :
    List (κ × List α) :=
  match m with
  | [] => [(k, [v])]
  | (k', vs) :: rest =>
    if k' = k then (k', vs ++ [v]) :: rest else (k', vs) :: insertGroup rest k v

/-- Selector strings (`selector(parent(element))`), compared and ordered the
way Python compares `str` (lexicographically by code point), are modelled as
character lists with the Mathlib lexicographic order. -/
abbrev Selector := List Char

/-- The filter-and-group phase of `_build_clusters` (lines 58-77):
`descendants_tree[descendant.parent_selector].append(descendant)` for every
descendant of `<body>` that passes the four checks. -/
def buildTree (ext : ListExtractor) (ds : List PipeElem) :
    List (Selector × List PipeElem) :=
  ds.foldl
    (fun acc d => if passesFilter ext d then insertGroup acc d.parent_selector d else acc)
    []

/-- The deletion test of the tree-cut walk (line 84): `last_selector and
selector and last_selector.startswith(selector)` — empty strings are falsy,
and `l.startswith(s)` asks whether `s` is a string-prefix of `l`. -/
def delCond (last : Option Selector) (s : Selector) : Bool :=
  match last with
  | none => false
  | some l => !l.isEmpty && !s.isEmpty && s.isPrefixOf l

/-- The tree-cut walk of `_build_clusters` (lines 81-86): visit the
selectors in the given (descending) order and delete one whenever the
deletion test against the previously visited selector fires;
`last_selector` becomes the visited selector whether or not it was
deleted. -/
def pruneWalk (last : Option Selector) : List Selector → List Selector
  | [] => []
  | s :: rest =>
    if delCond last s then pruneWalk (some s) rest
    else s :: pruneWalk (some s) rest

/-- Python `sorted(list(descendants_tree.keys()))` followed by the reversed
(`selectors[::-1]`) iteration: the keys in descending lexicographic
order. -/
def sortedDesc (ks : List Selector) : List Selector :=
  (List.insertionSort (fun a b : Selector => a ≤ b) ks).reverse

/-- The whole tree-cut step (lines 79-86) on a selector→group mapping: keep
the entries whose selector survives the walk, in original order (`del`
leaves the remaining dict order unchanged). -/
def pruneTree {α : Type} (m : List (Selector × α)) : List (Selector × α) :=
  m.filter (fun kv => kv.1 ∈ pruneWalk none (sortedDesc (m.map Prod.fst)))

/-- Function `np.mean` of a list of numbers: sum divided by length. -/
def npMean (l : List ℚ) : ℚ := l.sum / l.length

/-- The score `_choose_best_cluster` assigns a cluster (lines 101-104):
`np.mean([element.similarity_with_siblings for element in cluster])`. -/
def clusterScore (cl : List PipeElem) : ℚ :=
  npMean (cl.map (fun e => e.similarity_with_siblings))

/-- The scoring loop of `_choose_best_cluster` (lines 98-107): running
maximum `clusters_score_max` (initially `-1`) and argmax
`clusters_score_arg_max` (initially `0`), updated only on strict
improvement (`>`). -/
def scoreFold : List (Nat × List PipeElem) → ℚ → Nat → Nat
  | [], _, arg => arg
  | (cid, cl) :: rest, mx, arg =>
    if mx < clusterScore cl then scoreFold rest (clusterScore cl) cid
    else scoreFold rest mx arg

/-- Function `_choose_best_cluster(clusters)` (lines 90-109).  The final
`clusters[clusters_score_arg_max]` is a dict lookup; on a missing key — in
particular when `clusters` is empty, where the argmax stays `0` — Python
raises an uncaught `KeyError`, modelled as `Except.error`. -/
def choose_best_cluster (clusters : List (Nat × List PipeElem)) :
    Except PyErr (List PipeElem) :=
  match clusters.find? (fun kv => kv.1 == scoreFold clusters (-1) 0) with
  | none => .error .keyError
  | some kv => .ok kv.2

/-- The probability table of `_extract_from_cluster` (lines 118-128): group
`probability_of_title_with_length(len(descendant_text))` by the
descendant's `tag_path`.  `_probability_of_title_with_length` is a
floating-point Gaussian (`np.exp`); it enters the claims only through which
tag path attains the maximal average, so the embedding takes the length
weighting as the parameter `prob`. -/
def gatherProbs (prob : Nat → ℚ) (cluster : List PipeElem) : List (String × List ℚ) :=
  cluster.foldl
    (fun acc el =>
      el.linked_descendants.foldl
        (fun acc d => insertGroup acc d.tag_path (prob d.descendant_text.length)) acc)
    []

/-- Python's `max(items, key=operator.itemgetter(1))`: the first item with
maximal second component (only strictly greater values displace the current
best). -/
def maxBySnd (best : String × ℚ) : List (String × ℚ) → String × ℚ
  | [] => best
  | x :: rest => maxBySnd (if best.2 < x.2 then x else best) rest

/-- Lines 129-131: average the probabilities per tag path and take
`max(probabilities_of_title_avg.items(), key=itemgetter(1))[0]`.  On an
empty table (no linked descendants anywhere in the cluster) Python's
`max(())` raises an uncaught `ValueError`. -/
def best_tag_path (prob : Nat → ℚ) (cluster : List PipeElem) : Except PyErr String :=
  match (gatherProbs prob cluster).map (fun kv => (kv.1, npMean kv.2)) with
  | [] => .error .valueError
  | x :: rest => .ok (maxBySnd x rest).1

/-- A result record `{'title': ..., 'href': ...}`. -/
structure ListRecord where
  title : String
  href : String
deriving DecidableEq

/-- One iteration of the emission loop of `_extract_from_cluster`
(lines 138-149): skip the descendant when its `tag_path` differs from the
best path or its `href` is missing or empty (`if not href: continue`);
otherwise append `{title: text(descendant), href: ...}`.  The title is
appended exactly as computed; the source has no emptiness check on it. -/
def emitStep (best : String) (res : List ListRecord) (d : LinkedDescendant) :
    List ListRecord :=
  if d.tag_path = best then
    match d.href with
    | none => res
    | some h => if h = "" then res else res ++ [⟨d.descendant_text, h⟩]
  else res

/-- The emission loop of `_extract_from_cluster` (lines 134-150) over every
linked descendant of every cluster element. -/
def extractByTagPath (best : String) (cluster : List PipeElem) : List ListRecord :=
  cluster.foldl (fun res el => el.linked_descendants.foldl (emitStep best) res) []

/-- Function `_extract_from_cluster(cluster)` (lines 111-150): select the best tag
path, then emit the records; a `ValueError` from the selection propagates. -/
def extract_from_cluster (prob : Nat → ℚ) (cluster : List PipeElem) :
    Except PyErr (List ListRecord) :=
  match best_tag_path prob cluster with
  | .error e => .error e
  | .ok best => .ok (extractByTagPath best cluster)

/-- Function `html2element(html)` (utils/element.py lines 44-54): `None` for empty
(falsy) input, otherwise the parsed tree; `lxml.html.fromstring` is the
external parser, taken as the parameter `parse`. -/
def html2element (parse : String → Node) (html : String) : Option Node :=
  if html = "" then none else some (parse html)

/-- Modelled from the spec: `BaseExtractor.extract` (extractors/base.py) is
not under `src/`.  Per spec §6 it parses the raw markup with `html2element`
and runs the pipeline on the tree, and per spec §7 (EmptyInput) an
empty/absent `html` returns an empty result immediately rather than an
exception.  The pipeline body is the parameter `process`. -/
def baseExtract (parse : String → Node)
    (process : Node → Except PyErr (List ListRecord)) (html : String) :
    Except PyErr (List ListRecord) :=
  match html2element parse html with
  | none => .ok []
  | some el => process el

/-- Function `extract_list(html)` (lines 174-179): delegate to the module-level
extractor's `extract`. -/
def extract_list (parse : String → Node)
    (process : Node → Except PyErr (List ListRecord)) (html : String) :
    Except PyErr (List ListRecord) :=
  baseExtract parse process html

/-- Proper-descendant relation of the node tree, written from the ordinary
meaning of "descendant": a child, or a descendant of a child. -/
inductive Desc : Node → Node → Prop
  | child {c p : Node} : c ∈ childrenOf p → Desc c p
  | trans {x c p : Node} : c ∈ childrenOf p → Desc x c → Desc x p

/-! ## Theorems -/

theorem join_cons (s : String) (l : List String) :
    String.join (s :: l) = s ++ String.join l := by
  cases s with
  | mk d => simp [String.join_eq, List.flatten]; rfl

/-- C3: every feature accessor was claimed total over `Element ∪ {absent}`
with the zero value of its result type on absent input, `text(absent) = ""`,
and no raise from the density functions.  The code disagrees on absent
input: `text(None)` returns the integer `0` (not the empty string), which
makes `number_of_char(None)` raise `TypeError`, and the two density
functions read attributes of `None` and raise `AttributeError`.  The
remaining accessors do return their zero values. -/
theorem accessors_at_absent_input :
    text none = PyVal.int 0 ∧ text none ≠ PyVal.str "" ∧
    number_of_char none = Except.error PyErr.typeError ∧
    density_of_text none = Except.error PyErr.attributeError ∧
    density_of_punctuation none = Except.error PyErr.attributeError ∧
    number_of_siblings none = 0 ∧ number_of_descendants none = 0 ∧
    number_of_children none = 0 ∧ number_of_a_descendants none = 0 ∧
    number_of_p_descendants none = 0 ∧ number_of_punctuation none = 0 ∧
    a_descendants none = [] ∧ siblings none = [] ∧ descendants none = [] ∧
    children none = [] :=
  ⟨rfl, by decide, rfl, rfl, rfl, rfl, rfl, rfl, rfl, rfl, rfl, rfl, rfl, rfl, rfl⟩

/-- C8: for empty html input the call returns an empty result sequence
immediately — `html2element('')` is `None` and `extract` returns the empty
result without running the pipeline — and raises nothing, whatever the
external parser and the downstream pipeline do. -/
theorem extract_list_empty_input (parse : String → Node)
    (process : Node → Except PyErr (List ListRecord)) :
    extract_list parse process "" = Except.ok [] := rfl

/-- C9: for every element, `alias` is the tag name, followed by each
attribute rendered as `[name="value"]` (`[name]` for an empty value) with
all whitespace removed from name and value, in attribute order, followed by
`::nth-child(n)` for `n` = number of preceding siblings + 1, the suffix
omitted exactly when `n = 1`; and `alias(absent) = ''`. -/
theorem alias_matches_spec :
    (∀ e : Elem, alias' (some e) = aliasSpec e) ∧ alias' none = "" := by
  constructor
  · intro e
    show String.join ([tagOf e.node] ++ (attrsOf e.node).map renderAttrib) ++ _ = _
    rw [List.singleton_append, join_cons, aliasSpec, nthChildSpec, String.append_assoc]
    have hmap : (attrsOf e.node).map renderAttrib
        = (attrsOf e.node).map (fun kv => renderAttribSpec kv.1 kv.2) := by
      apply List.map_congr_left
      intro kv _
      rfl
    rw [hmap, ite_not]
    exact (String.append_assoc _ _ _).symm
  · rfl

theorem mem_descendantsList_of_mem {l : List Node} {c : Node} (hc : c ∈ l)
    (he : isElem c = true) : c ∈ descendantsList l := by
  induction l with
  | nil => cases hc
  | cons hd tl ih =>
    cases hd with
    | textNode s =>
      rcases List.mem_cons.mp hc with h | h
      · subst h; simp [isElem] at he
      · simpa [descendantsList] using ih h
    | elem t a cs =>
      rcases List.mem_cons.mp hc with h | h
      · subst h; simp [descendantsList]
      · simp [descendantsList, List.mem_append]
        exact Or.inr (Or.inr (ih h))

theorem mem_descendantsList_lift {l : List Node} {c x : Node} (hc : c ∈ l)
    (hx : x ∈ descendantsList (childrenOf c)) : x ∈ descendantsList l := by
  induction l with
  | nil => cases hc
  | cons hd tl ih =>
    cases hd with
    | textNode s =>
      rcases List.mem_cons.mp hc with h | h
      · subst h
        simp only [childrenOf, descendantsList] at hx
        exact absurd hx (List.not_mem_nil x)
      · simpa [descendantsList] using ih h
    | elem t a cs =>
      rcases List.mem_cons.mp hc with h | h
      · subst h
        simp only [childrenOf] at hx
        simp [descendantsList, List.mem_append, hx]
      · simp [descendantsList, List.mem_append]
        exact Or.inr (Or.inr (ih h))

theorem of_mem_descendantsList :
    ∀ (l : List Node) (x : Node), x ∈ descendantsList l →
      (∃ c ∈ l, x = c ∨ Desc x c) ∧ isElem x = true := by
  intro l
  induction l using descendantsList.induct with
  | case1 =>
    intro x hx
    simp only [descendantsList] at hx
    exact absurd hx (List.not_mem_nil x)
  | case2 s rest ih =>
    intro x hx
    simp only [descendantsList] at hx
    obtain ⟨⟨c, hc, hxc⟩, he⟩ := ih x hx
    exact ⟨⟨c, List.mem_cons_of_mem _ hc, hxc⟩, he⟩
  | case3 t a cs rest ih1 ih2 =>
    intro x hx
    simp only [descendantsList, List.mem_cons, List.mem_append] at hx
    rcases hx with h | h | h
    · subst h
      exact ⟨⟨Node.elem t a cs, List.mem_cons_self _ _, Or.inl rfl⟩, rfl⟩
    · obtain ⟨⟨c, hc, hxc⟩, he⟩ := ih1 x h
      have hdesc : Desc x (Node.elem t a cs) := by
        have hc' : c ∈ childrenOf (Node.elem t a cs) := hc
        rcases hxc with h' | h'
        · subst h'; exact Desc.child hc'
        · exact Desc.trans hc' h'
      exact ⟨⟨Node.elem t a cs, List.mem_cons_self _ _, Or.inr hdesc⟩, he⟩
    · obtain ⟨⟨c, hc, hxc⟩, he⟩ := ih2 x h
      exact ⟨⟨c, List.mem_cons_of_mem _ hc, hxc⟩, he⟩

theorem mem_descendantsList_of_desc {x p : Node} (h : Desc x p)
    (he : isElem x = true) : x ∈ descendantsList (childrenOf p) := by
  induction h with
  | child hc => exact mem_descendantsList_of_mem hc he
  | trans hc _ ih => exact mem_descendantsList_lift hc ih

theorem sizeOf_lt_of_mem_childrenOf {c p : Node} (hc : c ∈ childrenOf p) :
    sizeOf c < sizeOf p := by
  cases p with
  | textNode s => exact absurd hc (List.not_mem_nil c)
  | elem t a cs =>
    simp only [childrenOf] at hc
    have := List.sizeOf_lt_of_mem hc
    simp only [Node.elem.sizeOf_spec]
    omega

theorem Desc.sizeOf_lt {x p : Node} (h : Desc x p) : sizeOf x < sizeOf p := by
  induction h with
  | child =>
    rename_i hc
    exact sizeOf_lt_of_mem_childrenOf hc
  | trans =>
    rename_i hc _ ih
    have := sizeOf_lt_of_mem_childrenOf hc
    omega

theorem isElem_of_tag_a {x : Node} (h : tagOf x = "a") : isElem x = true := by
  cases x with
  | elem t a cs => rfl
  | textNode s => simp [tagOf] at h

/-- C10: the linked descendants of an element are exactly its proper
descendants with tag `a`; the element itself is never among them (even when
its own tag is `a`); an element that is itself a hyperlink with no nested
`<a>` contributes no linked descendants; and a pipeline element with no
linked descendants contributes no result record to the emission loop. -/
theorem a_descendants_characterisation :
    ((∀ (e : Elem) (x : Node),
      x ∈ a_descendants (some e) ↔ Desc x e.node ∧ tagOf x = "a") ∧
    (∀ e : Elem, e.node ∉ a_descendants (some e)) ∧
    (∀ e : Elem, tagOf e.node = "a" →
      (∀ x : Node, Desc x e.node → tagOf x ≠ "a") →
      a_descendants (some e) = [])) ∧
    (∀ (el : PipeElem) (best : String) (res : List ListRecord),
      el.linked_descendants = [] →
      el.linked_descendants.foldl (emitStep best) res = res) := by
  refine ⟨?_, fun el best res h => by rw [h, List.foldl_nil]⟩
  have hiff : ∀ (e : Elem) (x : Node),
      x ∈ a_descendants (some e) ↔ Desc x e.node ∧ tagOf x = "a" := by
    intro e x
    constructor
    · intro hx
      simp only [a_descendants, List.mem_filter, decide_eq_true_eq] at hx
      obtain ⟨hmem, htag⟩ := hx
      obtain ⟨⟨c, hc, hxc⟩, _⟩ := of_mem_descendantsList _ _ hmem
      refine ⟨?_, htag⟩
      rcases hxc with h' | h'
      · subst h'; exact Desc.child hc
      · exact Desc.trans hc h'
    · rintro ⟨hdesc, htag⟩
      simp only [a_descendants, List.mem_filter, decide_eq_true_eq]
      exact ⟨mem_descendantsList_of_desc hdesc (isElem_of_tag_a htag), htag⟩
  refine ⟨hiff, ?_, ?_⟩
  · intro e hmem
    have := ((hiff e e.node).mp hmem).1.sizeOf_lt
    omega
  · intro e _ hno
    apply List.eq_nil_iff_forall_not_mem.mpr
    intro x hx
    obtain ⟨hdesc, htag⟩ := (hiff e x).mp hx
    exact hno x hdesc htag

/-- Witness for C10 at a concrete element: an `<a>` element containing only
text has no linked descendants. -/
theorem a_descendants_characterisation_witness :
    a_descendants (some ⟨Node.elem "a" [] [Node.textNode "x"], [], []⟩) = [] := by
  apply a_descendants_characterisation.1.2.2 ⟨Node.elem "a" [] [Node.textNode "x"], [], []⟩ rfl
  intro x hx
  cases hx with
  | child hc =>
    simp only [childrenOf, List.mem_cons, List.not_mem_nil, or_false] at hc
    subst hc; decide
  | trans hc hd =>
    simp only [childrenOf, List.mem_cons, List.not_mem_nil, or_false] at hc
    subst hc
    cases hd with
    | child hc' => simp [childrenOf] at hc'
    | trans hc' _ => simp [childrenOf] at hc'

theorem lt_of_lex {a b : Selector} (h : List.Lex (· < ·) a b) : a < b := h

theorem prefix_sandwich : ∀ (s p t : Selector), s <+: t →
    List.Lex (· < ·) s p → List.Lex (· < ·) p t → s <+: p := by
  intro s
  induction s with
  | nil => intro p t _ _ _; exact List.nil_prefix
  | cons c s' ih =>
    intro p t hst hsp hpt
    cases p with
    | nil => exact absurd hsp (List.Lex.not_nil_right _ _)
    | cons d p' =>
      cases t with
      | nil => exact absurd hst (by simp)
      | cons e t' =>
        obtain ⟨rfl, hs't'⟩ := List.cons_prefix_cons.mp hst
        cases hsp with
        | rel h1 =>
          cases hpt with
          | rel h2 => exact absurd h2 (lt_asymm h1)
          | cons h2 => exact absurd h1 (lt_irrefl _)
        | cons h1 =>
          cases hpt with
          | rel h2 => exact absurd h2 (lt_irrefl _)
          | cons h2 => exact List.cons_prefix_cons.mpr ⟨rfl, ih p' t' hs't' h1 h2⟩

theorem delCond_some_iff (l s : Selector) :
    delCond (some l) s = true ↔ l ≠ [] ∧ s ≠ [] ∧ s <+: l := by
  simp [delCond, List.isPrefixOf_iff_prefix, and_assoc]

theorem pruneWalk_sublist (last : Option Selector) (l : List Selector) :
    (pruneWalk last l).Sublist l := by
  induction l generalizing last with
  | nil => simp [pruneWalk]
  | cons s rest ih =>
    rw [pruneWalk]
    by_cases h : delCond last s = true
    · rw [if_pos h]
      exact (ih (some s)).cons s
    · rw [if_neg h]
      exact (ih (some s)).cons₂ s

theorem ne_nil_of_lex {a b : Selector} (h : List.Lex (· < ·) a b) : b ≠ [] := by
  intro hb
  subst hb
  exact List.Lex.not_nil_right _ _ h

theorem pruneWalk_chain :
    ∀ (l : List Selector) (p : Selector),
      List.Pairwise (fun a b => List.Lex (· < ·) b a) (p :: l) →
      List.Chain' (fun t s => delCond (some t) s = false) (pruneWalk (some p) l) ∧
      (∀ s ∈ (pruneWalk (some p) l).head?, delCond (some p) s = false) := by
  intro l
  induction l with
  | nil => intro p _; exact ⟨List.chain'_nil, by simp [pruneWalk]⟩
  | cons x rest ih =>
    intro p hpair
    have hpx : List.Lex (· < ·) x p := (List.pairwise_cons.mp hpair).1 x (List.mem_cons_self _ _)
    have htail : List.Pairwise (fun a b => List.Lex (· < ·) b a) (x :: rest) :=
      (List.pairwise_cons.mp hpair).2
    rw [pruneWalk]
    by_cases hdel : delCond (some p) x = true
    · rw [if_pos hdel]
      obtain ⟨hchain, hhead⟩ := ih x htail
      refine ⟨hchain, ?_⟩
      intro s hs
      have hsrest : s ∈ rest := by
        have hsl : s ∈ pruneWalk (some x) rest := List.mem_of_mem_head? hs
        exact (pruneWalk_sublist _ _).subset hsl
      have hsx : List.Lex (· < ·) s x := (List.pairwise_cons.mp htail).1 s hsrest
      by_contra hcon
      have hcon' : delCond (some p) s = true := by
        cases h' : delCond (some p) s
        · exact absurd h' hcon
        · rfl
      obtain ⟨hp, hsnil, hsp⟩ := delCond_some_iff _ _ |>.mp hcon'
      have hxnil : x ≠ [] := ne_nil_of_lex hsx
      have hsprex : s <+: x := prefix_sandwich s x p hsp hsx hpx
      have : delCond (some x) s = true := (delCond_some_iff _ _).mpr ⟨hxnil, hsnil, hsprex⟩
      rw [hhead s hs] at this
      exact Bool.false_ne_true this
    · rw [if_neg hdel]
      obtain ⟨hchain, hhead⟩ := ih x htail
      refine ⟨List.chain'_cons'.mpr ⟨hhead, hchain⟩, ?_⟩
      intro s hs
      simp only [List.head?_cons, Option.mem_def, Option.some.injEq] at hs
      subst hs
      exact Bool.not_eq_true _ |>.mp hdel

theorem pruneWalk_fixed :
    ∀ (l : List Selector) (last : Option Selector),
      List.Chain' (fun t s => delCond (some t) s = false) l →
      (∀ s ∈ l.head?, delCond last s = false) →
      pruneWalk last l = l := by
  intro l
  induction l with
  | nil => intro last _ _; rfl
  | cons x rest ih =>
    intro last hchain hhead
    rw [pruneWalk]
    have hx : delCond last x = false := hhead x (by simp)
    rw [if_neg (by simp [hx])]
    congr 1
    obtain ⟨hh, hc⟩ := List.chain'_cons'.mp hchain
    exact ih (some x) hc hh

theorem sortedDesc_perm (ks : List Selector) : (sortedDesc ks).Perm ks :=
  (List.reverse_perm _).trans (List.perm_insertionSort _ ks)

theorem sortedDesc_pairwise {ks : List Selector} (h : ks.Nodup) :
    List.Pairwise (fun a b => List.Lex (· < ·) b a) (sortedDesc ks) := by
  have hs : List.Sorted (fun a b : Selector => a ≤ b) (List.insertionSort _ ks) :=
    List.sorted_insertionSort _ ks
  have hnd : (sortedDesc ks).Nodup := (sortedDesc_perm ks).nodup_iff.mpr h
  have hle : List.Pairwise (fun a b : Selector => b ≤ a) (sortedDesc ks) := by
    rw [sortedDesc, List.pairwise_reverse]
    exact hs
  refine (hle.and hnd).imp ?_
  rintro a b ⟨h1, h2⟩
  exact lt_of_le_of_ne h1 (Ne.symm h2)

theorem map_fst_filter_mem {α : Type} (m : List (Selector × α)) (X : List Selector) :
    (m.filter (fun kv => kv.1 ∈ X)).map Prod.fst
      = (m.map Prod.fst).filter (fun k => k ∈ X) := by
  induction m with
  | nil => rfl
  | cons kv rest ih =>
    by_cases h : kv.1 ∈ X
    · simp [List.filter_cons, h, ih]
    · simp [List.filter_cons, h, ih]

theorem pruneWalk_none_chain {l : List Selector}
    (hp : List.Pairwise (fun a b => List.Lex (· < ·) b a) l) :
    List.Chain' (fun t s => delCond (some t) s = false) (pruneWalk none l) := by
  cases l with
  | nil => simp [pruneWalk]
  | cons x rest =>
    rw [pruneWalk, if_neg (by simp [delCond])]
    obtain ⟨hchain, hhead⟩ := pruneWalk_chain rest x hp
    exact List.chain'_cons'.mpr ⟨hhead, hchain⟩

/-- C6: the tree-cut (ancestor-prefix pruning) step of `_build_clusters` is
idempotent on every selector→group mapping with distinct keys (Python dict
keys are distinct): pruning the pruned mapping changes nothing. -/
theorem tree_cut_idempotent {α : Type} (m : List (Selector × α))
    (hnd : (m.map Prod.fst).Nodup) :
    pruneTree (pruneTree m) = pruneTree m := by
  set ks := m.map Prod.fst with hks
  set surv := pruneWalk none (sortedDesc ks) with hsurv
  have hpair : List.Pairwise (fun a b => List.Lex (· < ·) b a) (sortedDesc ks) :=
    sortedDesc_pairwise hnd
  have hsub : surv.Sublist (sortedDesc ks) := pruneWalk_sublist _ _
  have hsurv_pair : List.Pairwise (fun a b => List.Lex (· < ·) b a) surv :=
    hpair.sublist hsub
  have hsorted_nd : (sortedDesc ks).Nodup := (sortedDesc_perm ks).nodup_iff.mpr hnd
  have hsurv_nd : surv.Nodup := hsorted_nd.sublist hsub
  have hkeys : (pruneTree m).map Prod.fst = ks.filter (fun k => k ∈ surv) := by
    rw [pruneTree, ← hsurv]
    exact map_fst_filter_mem m surv
  have hperm : (ks.filter (fun k => k ∈ surv)).Perm surv := by
    apply (List.perm_ext_iff_of_nodup (hnd.filter _) hsurv_nd).mpr
    intro a
    simp only [List.mem_filter, decide_eq_true_eq]
    constructor
    · rintro ⟨_, h2⟩; exact h2
    · intro h
      exact ⟨(sortedDesc_perm ks).mem_iff.mp (hsub.subset h), h⟩
  haveI hanti : IsAntisymm Selector (fun a b : Selector => a ≤ b) :=
    ⟨fun a b h1 h2 => le_antisymm h1 h2⟩
  have hsorted_surv : sortedDesc (ks.filter (fun k => k ∈ surv)) = surv := by
    have hrev : List.Sorted (fun a b : Selector => a ≤ b) surv.reverse := by
      rw [List.Sorted, List.pairwise_reverse]
      exact hsurv_pair.imp (fun h => le_of_lt (lt_of_lex h))
    have hperm2 : (List.insertionSort (fun a b : Selector => a ≤ b)
        (ks.filter (fun k => k ∈ surv))).Perm surv.reverse :=
      (List.perm_insertionSort _ _).trans (hperm.trans (List.reverse_perm surv).symm)
    have heq : List.insertionSort (fun a b : Selector => a ≤ b)
        (ks.filter (fun k => k ∈ surv)) = surv.reverse :=
      List.eq_of_perm_of_sorted hperm2 (List.sorted_insertionSort _ _) hrev
    rw [sortedDesc, heq, List.reverse_reverse]
  have hfix : pruneWalk none surv = surv := by
    apply pruneWalk_fixed
    · exact pruneWalk_none_chain hpair
    · intro s _; rfl
  rw [pruneTree, hkeys, hsorted_surv, hfix, pruneTree, ← hsurv,
    List.filter_filter]
  simp only [Bool.and_self]

/-- Witness for C6 at a concrete mapping with a parent selector (`"a"`), a
child selector (`"ab"`) and an unrelated one (`"c"`). -/
theorem tree_cut_idempotent_witness :
    pruneTree (pruneTree [(['a','b'], 1), (['a'], 2), (['c'], 3)])
      = pruneTree [(['a','b'], 1), (['a'], 2), (['c'], 3)] :=
  tree_cut_idempotent [(['a','b'], 1), (['a'], 2), (['c'], 3)] (by decide)

theorem mem_insertGroup {κ α : Type} [DecidableEq κ] (m : List (κ × List α)) (k : κ)
    (v d : α) :
    (∃ kv ∈ insertGroup m k v, d ∈ kv.2) ↔ (∃ kv ∈ m, d ∈ kv.2) ∨ d = v := by
  induction m with
  | nil =>
    simp [insertGroup]
  | cons kv' rest ih =>
    obtain ⟨k', vs⟩ := kv'
    rw [insertGroup]
    by_cases h : k' = k
    · rw [if_pos h]
      simp only [List.mem_cons, List.mem_append, List.mem_singleton]
      constructor
      · rintro ⟨kv, hkv | hkv, hd⟩
        · rw [hkv] at hd
          rcases List.mem_append.mp hd with hd | hd
          · exact Or.inl ⟨(k', vs), Or.inl rfl, hd⟩
          · exact Or.inr (List.mem_singleton.mp hd)
        · exact Or.inl ⟨kv, Or.inr hkv, hd⟩
      · rintro (⟨kv, hkv | hkv, hd⟩ | hd)
        · rw [hkv] at hd
          exact ⟨(k', vs ++ [v]), Or.inl rfl, List.mem_append.mpr (Or.inl hd)⟩
        · exact ⟨kv, Or.inr hkv, hd⟩
        · exact ⟨(k', vs ++ [v]), Or.inl rfl, List.mem_append.mpr (Or.inr (by simp [hd]))⟩
    · rw [if_neg h]
      simp only [List.mem_cons]
      constructor
      · rintro ⟨kv, hkv | hkv, hd⟩
        · exact Or.inl ⟨kv, Or.inl hkv, hd⟩
        · rcases ih.mp ⟨kv, hkv, hd⟩ with ⟨kv2, h2, hd2⟩ | hd2
          · exact Or.inl ⟨kv2, Or.inr h2, hd2⟩
          · exact Or.inr hd2
      · rintro (⟨kv, hkv | hkv, hd⟩ | hd)
        · exact ⟨kv, Or.inl hkv, hd⟩
        · rcases ih.mpr (Or.inl ⟨kv, hkv, hd⟩) with ⟨kv2, h2, hd2⟩
          exact ⟨kv2, Or.inr h2, hd2⟩
        · rcases ih.mpr (Or.inr hd) with ⟨kv2, h2, hd2⟩
          exact ⟨kv2, Or.inr h2, hd2⟩

theorem insertGroup_keyed {κ α : Type} [DecidableEq κ] (keyOf : α → κ) :
    ∀ (m : List (κ × List α)) (k : κ) (v : α),
      (∀ kv ∈ m, ∀ x ∈ kv.2, kv.1 = keyOf x) → k = keyOf v →
      ∀ kv ∈ insertGroup m k v, ∀ x ∈ kv.2, kv.1 = keyOf x := by
  intro m
  induction m with
  | nil =>
    intro k v _ hv kv hkv x hx
    simp only [insertGroup, List.mem_singleton] at hkv
    rw [hkv] at hx ⊢
    simp only [List.mem_singleton] at hx
    rw [hx]
    exact hv
  | cons kv' rest ih =>
    intro k v hm hv kv hkv x hx
    obtain ⟨k', vs⟩ := kv'
    rw [insertGroup] at hkv
    by_cases h : k' = k
    · rw [if_pos h] at hkv
      rcases List.mem_cons.mp hkv with h2 | h2
      · rw [h2] at hx ⊢
        rcases List.mem_append.mp hx with h3 | h3
        · exact hm (k', vs) (List.mem_cons_self _ _) x h3
        · simp only [List.mem_singleton] at h3
          rw [h3, h, hv]
      · exact hm kv (List.mem_cons_of_mem _ h2) x hx
    · rw [if_neg h] at hkv
      rcases List.mem_cons.mp hkv with h2 | h2
      · rw [h2] at hx ⊢
        exact hm (k', vs) (List.mem_cons_self _ _) x hx
      · exact ih k v (fun kv2 hkv2 => hm kv2 (List.mem_cons_of_mem _ hkv2)) hv kv h2 x hx

theorem buildTree_go_mem (ext : ListExtractor) (d : PipeElem) :
    ∀ (ds : List PipeElem) (acc : List (Selector × List PipeElem)),
      (∃ kv ∈ ds.foldl
          (fun acc d' =>
            if passesFilter ext d' then insertGroup acc d'.parent_selector d' else acc)
          acc, d ∈ kv.2) ↔
        (∃ kv ∈ acc, d ∈ kv.2) ∨ (d ∈ ds ∧ passesFilter ext d = true) := by
  intro ds
  induction ds with
  | nil => simp
  | cons d' rest ih =>
    intro acc
    rw [List.foldl_cons]
    by_cases h : passesFilter ext d' = true
    · rw [if_pos h, ih]
      rw [mem_insertGroup]
      constructor
      · rintro ((ha | rfl) | ⟨hmem, hp⟩)
        · exact Or.inl ha
        · exact Or.inr ⟨List.mem_cons_self _ _, h⟩
        · exact Or.inr ⟨List.mem_cons_of_mem _ hmem, hp⟩
      · rintro (ha | ⟨hmem, hp⟩)
        · exact Or.inl (Or.inl ha)
        · rcases List.mem_cons.mp hmem with rfl | hmem'
          · exact Or.inl (Or.inr rfl)
          · exact Or.inr ⟨hmem', hp⟩
    · rw [if_neg h, ih]
      constructor
      · rintro (ha | ⟨hmem, hp⟩)
        · exact Or.inl ha
        · exact Or.inr ⟨List.mem_cons_of_mem _ hmem, hp⟩
      · rintro (ha | ⟨hmem, hp⟩)
        · exact Or.inl ha
        · rcases List.mem_cons.mp hmem with rfl | hmem'
          · exact absurd hp h
          · exact Or.inr ⟨hmem', hp⟩

theorem buildTree_mem (ext : ListExtractor) (ds : List PipeElem) (d : PipeElem) :
    (∃ kv ∈ buildTree ext ds, d ∈ kv.2) ↔ d ∈ ds ∧ passesFilter ext d = true := by
  rw [buildTree, buildTree_go_mem]
  simp

theorem buildTree_keyed (ext : ListExtractor) (ds : List PipeElem) :
    ∀ kv ∈ buildTree ext ds, ∀ x ∈ kv.2, kv.1 = x.parent_selector := by
  rw [buildTree]
  suffices h : ∀ (ds : List PipeElem) (acc : List (Selector × List PipeElem)),
      (∀ kv ∈ acc, ∀ x ∈ kv.2, kv.1 = x.parent_selector) →
      ∀ kv ∈ ds.foldl
        (fun acc d' =>
          if passesFilter ext d' then insertGroup acc d'.parent_selector d' else acc)
        acc, ∀ x ∈ kv.2, kv.1 = x.parent_selector by
    exact h ds [] (by simp)
  intro ds'
  induction ds' with
  | nil => intro acc hacc; exact hacc
  | cons d' rest ih =>
    intro acc hacc
    rw [List.foldl_cons]
    by_cases h : passesFilter ext d' = true
    · rw [if_pos h]
      exact ih _ (insertGroup_keyed (fun x => x.parent_selector) acc _ d' hacc rfl)
    · rw [if_neg h]
      exact ih _ hacc

theorem passesFilter_iff (ext : ListExtractor) (d : PipeElem) :
    passesFilter ext d = true ↔
      ext.min_number ≤ (d.number_of_siblings + 1 : ℚ) ∧
      d.linked_descendants_group_text_min_length ≤ ext.max_length ∧
      ext.min_length ≤ d.linked_descendants_group_text_max_length ∧
      ext.similarity_threshold ≤ d.similarity_with_siblings := by
  constructor
  · intro h
    unfold passesFilter at h
    split_ifs at h with h1 h2 h3 h4
    exact ⟨not_lt.mp h1, not_lt.mp h2, not_lt.mp h3, not_lt.mp h4⟩
  · rintro ⟨c1, c2, c3, c4⟩
    unfold passesFilter
    rw [if_neg (not_lt.mpr c1), if_neg (not_lt.mpr c2), if_neg (not_lt.mpr c3),
      if_neg (not_lt.mpr c4)]

/-- C4: a descendant is added to a candidate group — the group keyed by its
parent selector — if and only if all four checks hold: enough siblings,
link-group minimum text length not above `max_length`, link-group maximum
text length not below `min_length`, and sibling similarity at least the
threshold; failing any check keeps it out of every group. -/
theorem build_clusters_candidate_filter (ext : ListExtractor) (ds : List PipeElem) :
    (∀ d : PipeElem,
      (∃ kv ∈ buildTree ext ds, d ∈ kv.2) ↔
        d ∈ ds ∧ ext.min_number ≤ (d.number_of_siblings + 1 : ℚ) ∧
        d.linked_descendants_group_text_min_length ≤ ext.max_length ∧
        ext.min_length ≤ d.linked_descendants_group_text_max_length ∧
        ext.similarity_threshold ≤ d.similarity_with_siblings) ∧
    (∀ kv ∈ buildTree ext ds, ∀ x ∈ kv.2, kv.1 = x.parent_selector) := by
  refine ⟨fun d => ?_, buildTree_keyed ext ds⟩
  rw [buildTree_mem, passesFilter_iff]

/-- Witness for C4: with the default configuration, an element with 5
siblings, link-group text lengths 10–20, similarity 1 and parent selector
`"a"` lands in a candidate group. -/
theorem build_clusters_candidate_filter_witness :
    ∃ kv ∈ buildTree defaultExtractor [⟨5, 10, 20, 1, ['a'], []⟩],
      (⟨5, 10, 20, 1, ['a'], []⟩ : PipeElem) ∈ kv.2 :=
  ((build_clusters_candidate_filter defaultExtractor [⟨5, 10, 20, 1, ['a'], []⟩]).1
    ⟨5, 10, 20, 1, ['a'], []⟩).mpr
    ⟨List.mem_singleton.mpr rfl, by norm_num [defaultExtractor], by norm_num [defaultExtractor],
      by norm_num [defaultExtractor], by norm_num [defaultExtractor]⟩

/-- C7: candidate survival is monotone non-increasing in the similarity
threshold — with all other configuration fixed and `t1 ≤ t2`, every
descendant surviving the cluster-builder filter at `t2` survives at `t1`
(the `t2`-survivor list is a sublist of the `t1`-survivor list, so the
surviving count never increases), and membership in the candidate grouping
at `t2` implies membership at `t1`. -/
theorem threshold_monotonicity (ext : ListExtractor) (t1 t2 : ℚ) (h : t1 ≤ t2)
    (ds : List PipeElem) :
    (ds.filter (passesFilter (setThreshold ext t2))).Sublist
      (ds.filter (passesFilter (setThreshold ext t1))) ∧
    (ds.filter (passesFilter (setThreshold ext t2))).length ≤
      (ds.filter (passesFilter (setThreshold ext t1))).length ∧
    ∀ d : PipeElem, (∃ kv ∈ buildTree (setThreshold ext t2) ds, d ∈ kv.2) →
      ∃ kv ∈ buildTree (setThreshold ext t1) ds, d ∈ kv.2 := by
  have himp : ∀ d : PipeElem, passesFilter (setThreshold ext t2) d = true →
      passesFilter (setThreshold ext t1) d = true := by
    intro d hd
    rw [passesFilter_iff] at hd ⊢
    exact ⟨hd.1, hd.2.1, hd.2.2.1, le_trans h hd.2.2.2⟩
  have hsub := List.monotone_filter_right ds himp
  refine ⟨hsub, hsub.length_le, fun d hd => ?_⟩
  rw [buildTree_mem] at hd ⊢
  exact ⟨hd.1, himp d hd.2⟩

/-- Witness for C7 at thresholds 1/2 ≤ 4/5 on a two-element input, one of
which passes only the lower threshold. -/
theorem threshold_monotonicity_witness :
    ((([⟨5, 10, 20, 1, ['a'], []⟩, ⟨5, 10, 20, 3 / 5, ['b'], []⟩] : List PipeElem).filter
        (passesFilter (setThreshold defaultExtractor (4 / 5)))).Sublist
      (([⟨5, 10, 20, 1, ['a'], []⟩, ⟨5, 10, 20, 3 / 5, ['b'], []⟩] : List PipeElem).filter
        (passesFilter (setThreshold defaultExtractor (1 / 2))))) ∧
    ((([⟨5, 10, 20, 1, ['a'], []⟩, ⟨5, 10, 20, 3 / 5, ['b'], []⟩] : List PipeElem).filter
        (passesFilter (setThreshold defaultExtractor (4 / 5)))).length ≤
      (([⟨5, 10, 20, 1, ['a'], []⟩, ⟨5, 10, 20, 3 / 5, ['b'], []⟩] : List PipeElem).filter
        (passesFilter (setThreshold defaultExtractor (1 / 2)))).length) ∧
    ∀ d : PipeElem,
      (∃ kv ∈ buildTree (setThreshold defaultExtractor (4 / 5))
        [⟨5, 10, 20, 1, ['a'], []⟩, ⟨5, 10, 20, 3 / 5, ['b'], []⟩], d ∈ kv.2) →
      ∃ kv ∈ buildTree (setThreshold defaultExtractor (1 / 2))
        [⟨5, 10, 20, 1, ['a'], []⟩, ⟨5, 10, 20, 3 / 5, ['b'], []⟩], d ∈ kv.2 :=
  threshold_monotonicity defaultExtractor (1 / 2) (4 / 5) (by norm_num)
    [⟨5, 10, 20, 1, ['a'], []⟩, ⟨5, 10, 20, 3 / 5, ['b'], []⟩]

theorem scoreFold_spec :
    ∀ (l : List (Nat × List PipeElem)) (mx : ℚ) (arg : Nat),
      (scoreFold l mx arg = arg ∧ ∀ kv ∈ l, clusterScore kv.2 ≤ mx) ∨
      (∃ i, ∃ hi : i < l.length,
        scoreFold l mx arg = (l.get ⟨i, hi⟩).1 ∧
        mx < clusterScore (l.get ⟨i, hi⟩).2 ∧
        (∀ j, ∀ hj : j < l.length,
          clusterScore (l.get ⟨j, hj⟩).2 ≤ clusterScore (l.get ⟨i, hi⟩).2) ∧
        (∀ j, ∀ hj : j < l.length, j < i →
          clusterScore (l.get ⟨j, hj⟩).2 < clusterScore (l.get ⟨i, hi⟩).2 ∨
            clusterScore (l.get ⟨j, hj⟩).2 ≤ mx)) := by
  intro l
  induction l with
  | nil =>
    intro mx arg
    exact Or.inl ⟨rfl, by simp⟩
  | cons hd rest ih =>
    intro mx arg
    obtain ⟨cid, cl⟩ := hd
    rw [scoreFold]
    by_cases hm : mx < clusterScore cl
    · rw [if_pos hm]
      rcases ih (clusterScore cl) cid with ⟨heq, hall⟩ | ⟨i, hi, heq, hlt, hmax, hfirst⟩
      · refine Or.inr ⟨0, by simp, heq, hm, ?_, ?_⟩
        · intro j hj
          cases j with
          | zero => exact le_refl _
          | succ j' =>
            exact hall _ (List.get_mem rest j' (Nat.lt_of_succ_lt_succ hj))
        · intro j hj hji
          exact absurd hji (Nat.not_lt_zero j)
      · refine Or.inr ⟨i + 1, Nat.succ_lt_succ hi, heq, lt_trans hm hlt, ?_, ?_⟩
        · intro j hj
          cases j with
          | zero => exact le_of_lt hlt
          | succ j' => exact hmax j' (Nat.lt_of_succ_lt_succ hj)
        · intro j hj hji
          cases j with
          | zero => exact Or.inl hlt
          | succ j' =>
            rcases hfirst j' (Nat.lt_of_succ_lt_succ hj) (Nat.lt_of_succ_lt_succ hji)
              with h | h
            · exact Or.inl h
            · exact Or.inl (lt_of_le_of_lt h hlt)
    · rw [if_neg hm]
      rcases ih mx arg with ⟨heq, hall⟩ | ⟨i, hi, heq, hlt, hmax, hfirst⟩
      · refine Or.inl ⟨heq, ?_⟩
        intro kv hkv
        rcases List.mem_cons.mp hkv with rfl | hkv'
        · exact not_lt.mp hm
        · exact hall kv hkv'
      · refine Or.inr ⟨i + 1, Nat.succ_lt_succ hi, heq, hlt, ?_, ?_⟩
        · intro j hj
          cases j with
          | zero => exact le_of_lt (lt_of_le_of_lt (not_lt.mp hm) hlt)
          | succ j' => exact hmax j' (Nat.lt_of_succ_lt_succ hj)
        · intro j hj hji
          cases j with
          | zero => exact Or.inr (not_lt.mp hm)
          | succ j' =>
            exact hfirst j' (Nat.lt_of_succ_lt_succ hj) (Nat.lt_of_succ_lt_succ hji)

theorem find_key_of_nodup :
    ∀ (l : List (Nat × List PipeElem)) (i : Nat) (hi : i < l.length),
      (l.map Prod.fst).Nodup →
      l.find? (fun kv => kv.1 == (l.get ⟨i, hi⟩).1) = some (l.get ⟨i, hi⟩) := by
  intro l
  induction l with
  | nil => intro i hi; simp at hi
  | cons x rest ih =>
    intro i hi hnd
    rw [List.map_cons, List.nodup_cons] at hnd
    obtain ⟨hx, hrest⟩ := hnd
    cases i with
    | zero =>
      apply List.find?_cons_of_pos
      simp
    | succ j =>
      have hj : j < rest.length := Nat.lt_of_succ_lt_succ hi
      have hget : ((x :: rest).get ⟨j + 1, hi⟩) = rest.get ⟨j, hj⟩ := rfl
      rw [hget]
      have hne : x.1 ≠ (rest.get ⟨j, hj⟩).1 := by
        intro hcon
        apply hx
        rw [hcon]
        exact List.mem_map.mpr ⟨rest.get ⟨j, hj⟩, List.get_mem rest j hj, rfl⟩
      rw [List.find?_cons_of_neg _ (by simpa using hne)]
      exact ih j hj hrest

/-- C5: with at least one cluster, every cluster nonempty with nonnegative
member similarities and distinct cluster ids (dict keys), the scorer
returns the members of a cluster whose mean `similarity_with_siblings` is
maximal, and strictly greater than the score of every cluster encountered
earlier in iteration order — so the first cluster attaining the maximum
wins and a later equal score never displaces it. -/
theorem choose_best_cluster_spec (clusters : List (Nat × List PipeElem))
    (hne : clusters ≠ [])
    (hcl : ∀ kv ∈ clusters, kv.2 ≠ [])
    (hsim : ∀ kv ∈ clusters, ∀ e ∈ kv.2, 0 ≤ e.similarity_with_siblings)
    (hnd : (clusters.map Prod.fst).Nodup) :
    ∃ i, ∃ hi : i < clusters.length,
      choose_best_cluster clusters = Except.ok (clusters.get ⟨i, hi⟩).2 ∧
      (∀ j, ∀ hj : j < clusters.length,
        clusterScore (clusters.get ⟨j, hj⟩).2 ≤ clusterScore (clusters.get ⟨i, hi⟩).2) ∧
      (∀ j, ∀ hj : j < clusters.length, j < i →
        clusterScore (clusters.get ⟨j, hj⟩).2 < clusterScore (clusters.get ⟨i, hi⟩).2) := by
  have hpos : ∀ kv ∈ clusters, (-1 : ℚ) < clusterScore kv.2 := by
    intro kv hkv
    have h0 : (0 : ℚ) ≤ clusterScore kv.2 := by
      unfold clusterScore npMean
      apply div_nonneg
      · apply List.sum_nonneg
        intro x hx
        obtain ⟨e, he, rfl⟩ := List.mem_map.mp hx
        exact hsim kv hkv e he
      · exact_mod_cast Nat.zero_le _
    linarith
  rcases scoreFold_spec clusters (-1) 0 with ⟨_, hall⟩ | ⟨i, hi, heq, _, hmax, hfirst⟩
  · obtain ⟨x, hx⟩ := List.exists_mem_of_ne_nil clusters hne
    exact absurd (hall x hx) (not_le.mpr (hpos x hx))
  · refine ⟨i, hi, ?_, hmax, ?_⟩
    · unfold choose_best_cluster
      rw [heq, find_key_of_nodup clusters i hi hnd]
    · intro j hj hji
      rcases hfirst j hj hji with h | h
      · exact h
      · exact absurd h (not_le.mpr (hpos _ (List.get_mem clusters j hj)))

/-- Witness for C5: two nonempty clusters with distinct ids; the hypotheses
hold and the scorer picks a maximal-score cluster. -/
theorem choose_best_cluster_spec_witness :
    ∃ i, ∃ hi : i < ([(0, [⟨5, 10, 20, 9 / 10, ['a'], []⟩]),
        (1, [⟨5, 10, 20, 1 / 2, ['b'], []⟩])] :
          List (Nat × List PipeElem)).length,
      choose_best_cluster [(0, [⟨5, 10, 20, 9 / 10, ['a'], []⟩]),
          (1, [⟨5, 10, 20, 1 / 2, ['b'], []⟩])] =
        Except.ok (([(0, [⟨5, 10, 20, 9 / 10, ['a'], []⟩]),
          (1, [⟨5, 10, 20, 1 / 2, ['b'], []⟩])] :
            List (Nat × List PipeElem)).get ⟨i, hi⟩).2 ∧
      (∀ j, ∀ hj : j < ([(0, [⟨5, 10, 20, 9 / 10, ['a'], []⟩]),
          (1, [⟨5, 10, 20, 1 / 2, ['b'], []⟩])] :
            List (Nat × List PipeElem)).length,
        clusterScore (([(0, [⟨5, 10, 20, 9 / 10, ['a'], []⟩]),
            (1, [⟨5, 10, 20, 1 / 2, ['b'], []⟩])] :
              List (Nat × List PipeElem)).get ⟨j, hj⟩).2 ≤
          clusterScore (([(0, [⟨5, 10, 20, 9 / 10, ['a'], []⟩]),
            (1, [⟨5, 10, 20, 1 / 2, ['b'], []⟩])] :
              List (Nat × List PipeElem)).get ⟨i, hi⟩).2) ∧
      (∀ j, ∀ hj : j < ([(0, [⟨5, 10, 20, 9 / 10, ['a'], []⟩]),
          (1, [⟨5, 10, 20, 1 / 2, ['b'], []⟩])] :
            List (Nat × List PipeElem)).length, j < i →
        clusterScore (([(0, [⟨5, 10, 20, 9 / 10, ['a'], []⟩]),
            (1, [⟨5, 10, 20, 1 / 2, ['b'], []⟩])] :
              List (Nat × List PipeElem)).get ⟨j, hj⟩).2 <
          clusterScore (([(0, [⟨5, 10, 20, 9 / 10, ['a'], []⟩]),
            (1, [⟨5, 10, 20, 1 / 2, ['b'], []⟩])] :
              List (Nat × List PipeElem)).get ⟨i, hi⟩).2) :=
  choose_best_cluster_spec
    [(0, [⟨5, 10, 20, 9 / 10, ['a'], []⟩]), (1, [⟨5, 10, 20, 1 / 2, ['b'], []⟩])]
    (by simp) (by intro kv hkv <;> fin_cases hkv <;> simp)
    (by intro kv hkv e he <;> fin_cases hkv <;> fin_cases he <;> norm_num) (by decide)

theorem emitStep_mem (best : String) (res : List ListRecord) (d : LinkedDescendant)
    (r : ListRecord) :
    r ∈ emitStep best res d ↔
      r ∈ res ∨ (d.tag_path = best ∧
        ∃ h, d.href = some h ∧ h ≠ "" ∧ r = ⟨d.descendant_text, h⟩) := by
  obtain ⟨tp, dt, hrf⟩ := d
  cases hrf with
  | none => by_cases htag : tp = best <;> simp [emitStep, htag]
  | some h =>
    by_cases htag : tp = best
    · by_cases hempty : h = ""
      · subst hempty
        simp [emitStep, htag]
      · simp [emitStep, htag, hempty, or_and_left]
    · simp [emitStep, htag]

theorem emit_inner_mem (best : String) (r : ListRecord) :
    ∀ (lds : List LinkedDescendant) (res : List ListRecord),
      r ∈ lds.foldl (emitStep best) res ↔
        r ∈ res ∨ ∃ d ∈ lds, d.tag_path = best ∧
          ∃ h, d.href = some h ∧ h ≠ "" ∧ r = ⟨d.descendant_text, h⟩ := by
  intro lds
  induction lds with
  | nil => simp
  | cons d lds ih =>
    intro res
    rw [List.foldl_cons, ih, emitStep_mem]
    constructor
    · rintro ((hr | ⟨htag, hh⟩) | ⟨d2, hd2, hp⟩)
      · exact Or.inl hr
      · exact Or.inr ⟨d, List.mem_cons_self _ _, htag, hh⟩
      · exact Or.inr ⟨d2, List.mem_cons_of_mem _ hd2, hp⟩
    · rintro (hr | ⟨d2, hd2, hp⟩)
      · exact Or.inl (Or.inl hr)
      · rcases List.mem_cons.mp hd2 with rfl | hd2'
        · exact Or.inl (Or.inr hp)
        · exact Or.inr ⟨d2, hd2', hp⟩

theorem extractByTagPath_mem (best : String) (cluster : List PipeElem) (r : ListRecord) :
    r ∈ extractByTagPath best cluster ↔
      ∃ el ∈ cluster, ∃ d ∈ el.linked_descendants, d.tag_path = best ∧
        ∃ h, d.href = some h ∧ h ≠ "" ∧ r = ⟨d.descendant_text, h⟩ := by
  rw [extractByTagPath]
  suffices hgen : ∀ (cl : List PipeElem) (res : List ListRecord),
      r ∈ cl.foldl (fun res el => el.linked_descendants.foldl (emitStep best) res) res ↔
        r ∈ res ∨ ∃ el ∈ cl, ∃ d ∈ el.linked_descendants, d.tag_path = best ∧
          ∃ h, d.href = some h ∧ h ≠ "" ∧ r = ⟨d.descendant_text, h⟩ by
    rw [hgen cluster []]
    simp
  intro cl
  induction cl with
  | nil => simp
  | cons el cl ih =>
    intro res
    rw [List.foldl_cons, ih, emit_inner_mem]
    constructor
    · rintro ((hr | ⟨d2, hd2, hp⟩) | ⟨el2, hel2, hp⟩)
      · exact Or.inl hr
      · exact Or.inr ⟨el, List.mem_cons_self _ _, d2, hd2, hp⟩
      · exact Or.inr ⟨el2, List.mem_cons_of_mem _ hel2, hp⟩
    · rintro (hr | ⟨el2, hel2, hp⟩)
      · exact Or.inl (Or.inl hr)
      · rcases List.mem_cons.mp hel2 with rfl | hel2'
        · exact Or.inl (Or.inr hp)
        · exact Or.inr ⟨el2, hel2', hp⟩

/-- C1 (amended): a `{title, href}` record is emitted from the winning
cluster for a linked descendant matching the best tag path if and only if
the descendant's `href` attribute is present and non-empty; the title is
the descendant's computed text and is NOT required to be non-empty — the
code has no emptiness check on the title. -/
theorem emitted_record_characterisation (best : String) (cluster : List PipeElem)
    (r : ListRecord) :
    r ∈ extractByTagPath best cluster ↔
      ∃ el ∈ cluster, ∃ d ∈ el.linked_descendants, d.tag_path = best ∧
        ∃ h, d.href = some h ∧ h ≠ "" ∧ r = ⟨d.descendant_text, h⟩ :=
  extractByTagPath_mem best cluster r

/-- Counterexample to C1 as stated: a winning cluster whose only linked
descendant has a non-empty `href` (`"/x"`) but an empty computed title
produces the record `{title: '', href: '/x'}` — an emitted record with an
empty `title`, which the claim says is skipped.  (The title-probability
weighting is irrelevant here: the cluster has a single tag path, so it is
chosen without any comparison.) -/
theorem emitted_record_empty_title :
    extract_from_cluster (fun _ => 0)
        [⟨5, 10, 20, 1, ['a'], [⟨"html/body/a", "", some "/x"⟩]⟩] =
      Except.ok [⟨"", "/x"⟩] ∧ (⟨"", "/x"⟩ : ListRecord).title = "" :=
  ⟨rfl, rfl⟩

theorem gatherProbs_of_no_linked (prob : Nat → ℚ) :
    ∀ (cluster : List PipeElem) (acc : List (String × List ℚ)),
      (∀ el ∈ cluster, el.linked_descendants = []) →
      cluster.foldl
        (fun acc el =>
          el.linked_descendants.foldl
            (fun acc d => insertGroup acc d.tag_path (prob d.descendant_text.length)) acc)
        acc = acc := by
  intro cluster
  induction cluster with
  | nil => intro acc _; rfl
  | cons el cl ih =>
    intro acc hall
    rw [List.foldl_cons, hall el (List.mem_cons_self _ _)]
    exact ih acc (fun el2 hel2 => hall el2 (List.mem_cons_of_mem _ hel2))

/-- C2 (amended): the two fatal conditions abort the call with uncaught
exceptions rather than a typed failure value — an empty cluster mapping
makes `_choose_best_cluster` raise `KeyError` at `clusters[0]`, and a
winning cluster with no linked descendants makes `_extract_from_cluster`
raise `ValueError` at `max()` over the empty probability table; in both
cases the exception propagates and no partial result list is returned. -/
theorem fatal_conditions_raise :
    choose_best_cluster [] = Except.error PyErr.keyError ∧
    ∀ (prob : Nat → ℚ) (cluster : List PipeElem),
      (∀ el ∈ cluster, el.linked_descendants = []) →
      extract_from_cluster prob cluster = Except.error PyErr.valueError := by
  refine ⟨rfl, ?_⟩
  intro prob cluster hall
  rw [extract_from_cluster, best_tag_path, gatherProbs]
  rw [gatherProbs_of_no_linked prob cluster [] hall]
  rfl

/-- Counterexample to C2 as stated: with no clusters the scorer does not
return a typed failure value — `clusters[clusters_score_arg_max]` raises an
uncaught `KeyError` (modelled by `Except.error PyErr.keyError`), i.e. the
call crashes with an unhandled exception. -/
theorem choose_best_cluster_empty_raises :
    choose_best_cluster [] = Except.error PyErr.keyError := rfl

/-- Witness for C2: a concrete one-element cluster with no linked
descendants makes the extraction raise `ValueError`. -/
theorem fatal_conditions_raise_witness :
    extract_from_cluster (fun _ => 0) [⟨5, 10, 20, 1, ['a'], []⟩] =
      Except.error PyErr.valueError :=
  fatal_conditions_raise.2 (fun _ => 0) [⟨5, 10, 20, 1, ['a'], []⟩]
    (by intro el hel; fin_cases hel; rfl)

end Gerapy
